import Mathlib

/-!
Verification of the catalog retrieval, version-resolution, filtering and sorting
pipeline of the `explore` subcommand.

The data model and the operations are shallowly embedded from the Go sources:
`extension`, `findLatest` and `getExtensionCatalog` from `catalog.go`,
`filterExtensions` and `sortExtensions` from `cmd.go`, `extensionType` from
`output.go`, and the `kind.filter` / `tier.filter` flag predicates from the
options file.  The semantic-version parser and comparator live in a third-party
library that is not part of this repository; they are modelled from the spec
(section 4.1).  The HTTP transport and the JSON decoder are likewise external;
a response is modelled by its status code, status text and decode outcome.
-/

/-- Embedded from `catalog.go`: one entry of the registry catalog.  Field names
follow the Go struct. -/
structure extension where
  Module : String
  Tier : String
  Description : String
  Latest : String
  Versions : List String
  Imports : List String
  Outputs : List String
  Subcommands : List String
deriving DecidableEq, Repr

/-- Modelled from the spec: a parsed semantic version as the version library
produces it.  `original` keeps the exact input string so that the winning
version can be returned in its original form; build metadata is validated but
discarded because it never takes part in comparisons. -/
structure Semver where
  major : Nat
  minor : Nat
  patch : Nat
  pre : List String
  original : String
deriving DecidableEq, Repr

/-- Helper for the version model: split a character list at every occurrence of
the separator, keeping empty pieces. -/
def splitOnChar (sep : Char) : List Char → List (List Char)
  | [] => [[]]
  | c :: cs =>
    let r := splitOnChar sep cs
    if c = sep then [] :: r
    else
      match r with
      | [] => [[c]]
      | h :: t => (c :: h) :: t

/-- Helper for the version model: split at the first occurrence of the
separator only, reporting whether the separator was present. -/
def splitFirst (sep : Char) : List Char → List Char × Option (List Char)
  | [] => ([], none)
  | c :: cs =>
    if c = sep then ([], some cs)
    else
      let (a, b) := splitFirst sep cs
      (c :: a, b)

/-- Modelled from the spec: characters allowed in a pre-release or build
identifier, namely ASCII alphanumerics and the hyphen. -/
def isIdentChar (c : Char) : Bool := c.isAlphanum || c = '-'

/-- Modelled from the spec: a pre-release or build identifier must be a
non-empty run of identifier characters. -/
def validIdent (p : List Char) : Bool := !p.isEmpty && p.all isIdentChar

/-- Numeric value of a digit run. -/
def digitsToNat (ds : List Char) : Nat :=
  ds.foldl (fun n c => n * 10 + (c.toNat - 48)) 0

/-- Modelled from the spec: a numeric version component is a non-empty run of
decimal digits. -/
def parseNumPart (p : List Char) : Option Nat :=
  if !p.isEmpty && p.all Char.isDigit then some (digitsToNat p) else none

/-- Modelled from the spec: the dotted numeric core of a version may have one,
two or three components; missing minor and patch components default to zero. -/
def parseCoreNums (core : List Char) : Option (Nat × Nat × Nat) :=
  match (splitOnChar '.' core).mapM parseNumPart with
  | some [a] => some (a, 0, 0)
  | some [a, b] => some (a, b, 0)
  | some [a, b, c] => some (a, b, c)
  | _ => none

/-- Modelled from the spec: lenient semantic-version recognition.  An optional
leading `v` is stripped; an optional `+build` suffix must consist of valid
identifiers and is discarded; an optional `-pre` part (split at the first
hyphen after the numeric core) must consist of valid dot-separated
identifiers; the rest must be a one- to three-component numeric core. -/
def semverParseCore (s : String) : Option (Nat × Nat × Nat × List String) :=
  let cs :=
    match s.data with
    | 'v' :: rest => rest
    | other => other
  let beforeMeta :=
    match splitOnChar '+' cs with
    | [core] => some core
    | [core, meta] => if (splitOnChar '.' meta).all validIdent then some core else none
    | _ => none
  match beforeMeta with
  | none => none
  | some corePre =>
    match splitFirst '-' corePre with
    | (core, none) =>
      match parseCoreNums core with
      | none => none
      | some (a, b, c) => some (a, b, c, [])
    | (core, some preChars) =>
      let ids := splitOnChar '.' preChars
      if ids.all validIdent then
        match parseCoreNums core with
        | none => none
        | some (a, b, c) => some (a, b, c, ids.map (fun l => String.mk l))
      else none

/-- Modelled from the spec: parse a version string, remembering the original
string form on success. -/
def semverParse (s : String) : Option Semver :=
  match semverParseCore s with
  | none => none
  | some (a, b, c, p) => some { major := a, minor := b, patch := c, pre := p, original := s }

/-- Modelled from the spec: a pre-release identifier made only of digits is
compared numerically. -/
def parseNumericIdent (s : String) : Option Nat := parseNumPart s.data

/-- Lexicographic string comparison computed on the character lists; this is
the order of the `<` instance on `String`, in an executable form. -/
def strLtB (a b : String) : Bool := decide (a.data < b.data)

/-- Three-way lexicographic string comparison built from `strLtB`. -/
def strCompare (s o : String) : Ordering :=
  if strLtB s o then .lt else if strLtB o s then .gt else .eq

/-- Modelled from the spec: compare two pre-release identifiers.  Numeric
identifiers compare numerically, a numeric identifier is lower than an
alphanumeric one, and alphanumeric identifiers compare lexically. -/
def comparePrePart (s o : String) : Ordering :=
  match parseNumericIdent s, parseNumericIdent o with
  | some si, some oi => compare si oi
  | some _, none => .lt
  | none, some _ => .gt
  | none, none => strCompare s o

/-- Helper for the version model: lexicographic comparison of lists, a shorter
list comparing below any extension of it. -/
def listCompareWith (cmp : α → α → Ordering) : List α → List α → Ordering
  | [], [] => .eq
  | [], _ :: _ => .lt
  | _ :: _, [] => .gt
  | x :: xs, y :: ys => (cmp x y).then (listCompareWith cmp xs ys)

/-- Modelled from the spec: compare pre-release identifier lists.  A release
(no pre-release part) outranks any pre-release of the same numeric core;
otherwise identifiers are compared left to right with fewer identifiers
comparing lower. -/
def comparePre (a b : List String) : Ordering :=
  match a, b with
  | [], [] => .eq
  | [], _ :: _ => .gt
  | _ :: _, [] => .lt
  | x, y => listCompareWith comparePrePart x y

/-- Modelled from the spec: full semantic-version comparison, by major, minor
and patch numbers and then by pre-release precedence. -/
def semverCompare (a b : Semver) : Ordering :=
  (compare a.major b.major).then ((compare a.minor b.minor).then
    ((compare a.patch b.patch).then (comparePre a.pre b.pre)))

/-- Modelled from the spec: strict semantic-version comparison used by
`findLatest` to replace the current candidate. -/
def semverGreaterThan (a b : Semver) : Bool := semverCompare a b == Ordering.gt

/-- Embedded from `catalog.go` (`findLatest` loop body): a parse failure keeps
the current candidate, a parsed version replaces it only when strictly
greater. -/
def findLatestStep (latest : Semver) (v : String) : Semver :=
  match semverParse v with
  | none => latest
  | some ver => if semverGreaterThan ver latest then ver else latest

/-- Embedded from `catalog.go`: resolve the latest version of a version list.
An empty list yields the empty string; an unparseable first entry yields the
empty string immediately; afterwards the remaining entries are folded with
`findLatestStep` and the original string of the winner is returned. -/
def findLatest (versions : List String) : String :=
  match versions with
  | [] => ""
  | v0 :: rest =>
    match semverParse v0 with
    | none => ""
    | some first => (rest.foldl findLatestStep first).original

/-- Embedded from `output.go`: display classification of an extension, with
javascript taking precedence over output, output over subcommand, and the
empty string for an extension with no populated facet. -/
def extensionType (e : extension) : String :=
  if !e.Imports.isEmpty then "JavaScript"
  else if !e.Outputs.isEmpty then "Output"
  else if !e.Subcommands.isEmpty then "Subcommand"
  else ""

/-- Embedded from the options file: the kind flag is a string-backed type. -/
abbrev kind := String

/-- Embedded from the options file: the tier flag is a string-backed type. -/
abbrev tier := String

/-- Embedded from the options file: a kind filter matches when the
corresponding facet list is non-empty; an absent or unrecognized filter value
matches everything. -/
def kind.filter (k : kind) (ext : extension) : Bool :=
  if k = "javascript" then !ext.Imports.isEmpty
  else if k = "output" then !ext.Outputs.isEmpty
  else if k = "subcommand" then !ext.Subcommands.isEmpty
  else true

/-- Embedded from the options file: a present tier filter matches only the
exact tier string; an absent or unrecognized filter value matches
everything. -/
def tier.filter (t : tier) (ext : extension) : Bool :=
  if t = "official" then decide (ext.Tier = "official")
  else if t = "community" then decide (ext.Tier = "community")
  else true

/-- Embedded from `cmd.go`: keep the catalog values that are not the host
tool itself and that pass both the kind and the tier filter.  The Go map is
modelled as an association list whose order stands for the iteration order. -/
def filterExtensions (catalog : List (String × extension)) (k : kind) (t : tier) :
    List extension :=
  (catalog.map Prod.snd).filter
    (fun ext => decide (ext.Module ≠ "go.k6.io/k6") && kind.filter k ext && tier.filter t ext)

/-- Embedded from `cmd.go` (`sort.Slice` comparator): by tier descending, then
by display type string ascending, then by module ascending. -/
def sortLess (a b : extension) : Bool :=
  if a.Tier ≠ b.Tier then strLtB b.Tier a.Tier
  else if extensionType a ≠ extensionType b then strLtB (extensionType a) (extensionType b)
  else strLtB a.Module b.Module

/-- Non-strict counterpart of `sortLess`, the order the sorted output
satisfies. -/
def sortLE (a b : extension) : Bool := !sortLess b a

/-- Embedded from `cmd.go`: `sort.Slice` with the `sortLess` comparator,
modelled as a deterministic stable sort. -/
def sortExtensions (extensions : List extension) : List extension :=
  extensions.insertionSort (fun a b => sortLE a b = true)

/-- Embedded from `catalog.go`: the sentinel error text for a non-success
HTTP status. -/
def errFetchExtensionCatalog : String := "failed to fetch extension catalog"

/-- Modelled from the spec: the fatal outcomes of `getExtensionCatalog` after
the transport succeeded, namely a non-success status or a decode failure. -/
inductive CatalogError where
  | fetchStatus (status : String)
  | decodeError
deriving DecidableEq, Repr

/-- Message of a catalog error; a fetch-status error wraps the sentinel text
together with the received status description. -/
def CatalogError.message : CatalogError → String
  | .fetchStatus status => errFetchExtensionCatalog ++ ": " ++ status
  | .decodeError => "failed to decode extension catalog"

/-- Modelled from the spec: a completed HTTP exchange, reduced to the status
code, the status description and the outcome of JSON-decoding the body
(`none` when the body is not a valid JSON object of descriptors). -/
structure HttpResponse where
  statusCode : Nat
  status : String
  bodyDecoded : Option (List (String × extension))
deriving DecidableEq, Repr

/-- Embedded from `catalog.go`: on a non-200 status fail with the wrapped
fetch error, on an undecodable body fail with a decode error, and otherwise
recompute the `Latest` field of every decoded descriptor from its version
list. -/
def getExtensionCatalog (resp : HttpResponse) :
    Except CatalogError (List (String × extension)) :=
  if resp.statusCode ≠ 200 then .error (.fetchStatus resp.status)
  else
    match resp.bodyDecoded with
    | none => .error .decodeError
    | some catalog =>
      .ok (catalog.map (fun kv => (kv.1, { kv.2 with Latest := findLatest kv.2.Versions })))

/-- Modelled from the spec: the display-kind rank exactly as claim C1 orders
it, ascending javascript, output, subcommand, none, with javascript winning
when several facets are populated. -/
def specKindRank (e : extension) : Nat :=
  if !e.Imports.isEmpty then 0
  else if !e.Outputs.isEmpty then 1
  else if !e.Subcommands.isEmpty then 2
  else 3

/-- Modelled from the spec: a descriptor list is ordered as claim C1 states it
when every earlier element relates to every later one by tier descending
(official before community), then claimed kind rank ascending, then module
ascending. -/
def specSortedAsClaimed (l : List extension) : Prop :=
  l.Pairwise (fun a b =>
    (a.Tier = "community" → b.Tier ≠ "official") ∧
    (a.Tier = b.Tier → specKindRank a < specKindRank b ∨
      (specKindRank a = specKindRank b ∧ a.Module ≤ b.Module)))

/-- Key of the `sortLess` comparator: tier in the dual (descending) string
order, then display type string, then module, lexicographically. -/
def sortKey (e : extension) : Lex ((OrderDual String) × Lex (String × String)) :=
  toLex (OrderDual.toDual e.Tier, toLex (extensionType e, e.Module))

/-- Concrete official javascript-kind descriptor used in witnesses. -/
def extJsOfficial : extension :=
  { Module := "github.com/grafana/xk6-faker", Tier := "official", Description := "",
    Latest := "", Versions := [], Imports := ["k6/x/faker"], Outputs := [], Subcommands := [] }

/-- Concrete official descriptor with no populated facet, display type empty. -/
def extNoneOfficial : extension :=
  { Module := "github.com/grafana/xk6-bare", Tier := "official", Description := "",
    Latest := "", Versions := [], Imports := [], Outputs := [], Subcommands := [] }

/-- Concrete descriptor whose tier is neither `official` nor `community`. -/
def extUnrecognizedTier : extension :=
  { Module := "github.com/example/xk6-odd", Tier := "partner", Description := "",
    Latest := "", Versions := [], Imports := [], Outputs := ["odd"], Subcommands := [] }

/-- Concrete successful response whose wire descriptor carries a bogus
`Latest` value that must be overwritten. -/
def respOkWireLatest : HttpResponse :=
  { statusCode := 200, status := "200 OK",
    bodyDecoded := some [("xk6-faker",
      { Module := "github.com/grafana/xk6-faker", Tier := "official", Description := "",
        Latest := "bogus-wire-latest", Versions := ["v0.4.2", "v0.4.4"],
        Imports := ["k6/x/faker"], Outputs := [], Subcommands := [] })] }

/-- Descriptor of `respOkWireLatest` after the fetcher annotates it. -/
def extFakerAnnotated : extension :=
  { Module := "github.com/grafana/xk6-faker", Tier := "official", Description := "",
    Latest := "v0.4.4", Versions := ["v0.4.2", "v0.4.4"],
    Imports := ["k6/x/faker"], Outputs := [], Subcommands := [] }

/-- Concrete not-found response. -/
def resp404 : HttpResponse :=
  { statusCode := 404, status := "404 Not Found", bodyDecoded := none }

/-- Concrete successful response with an undecodable body. -/
def respBadBody : HttpResponse :=
  { statusCode := 200, status := "200 OK", bodyDecoded := none }

/-- The executable string comparison agrees with the `<` order on strings. -/
theorem strLtB_iff (a b : String) : strLtB a b = true ↔ a < b := by
  rw [String.lt_iff_toList_lt]
  simp only [strLtB, decide_eq_true_eq, String.toList]

/-- The strict comparator agrees with the strict order of the sort key. -/
theorem sortLess_iff (a b : extension) : sortLess a b = true ↔ sortKey a < sortKey b := by
  unfold sortLess sortKey
  rcases eq_or_ne a.Tier b.Tier with ht | ht
  · rcases eq_or_ne (extensionType a) (extensionType b) with hy | hy
    · simp [ht, hy, Prod.Lex.lt_iff, strLtB_iff]
    · simp [ht, hy, Prod.Lex.lt_iff, strLtB_iff]
  · simp [ht, Prod.Lex.lt_iff, strLtB_iff,
      (by simpa using ht : OrderDual.toDual a.Tier ≠ OrderDual.toDual b.Tier)]

/-- The non-strict comparator agrees with the order of the sort key. -/
theorem sortLE_iff (a b : extension) : sortLE a b = true ↔ sortKey a ≤ sortKey b := by
  unfold sortLE
  rw [Bool.not_eq_true', ← Bool.not_eq_true, sortLess_iff, not_lt]

/-- The non-strict comparator spelled out on the record fields. -/
theorem sortLE_expand (a b : extension) : sortLE a b = true ↔
    b.Tier < a.Tier ∨ (a.Tier = b.Tier ∧ (extensionType a < extensionType b ∨
      (extensionType a = extensionType b ∧ a.Module ≤ b.Module))) := by
  rw [sortLE_iff]
  unfold sortKey
  rw [Prod.Lex.le_iff, Prod.Lex.le_iff]
  simp

/-- The comparator is total. -/
theorem sortLE_total (a b : extension) : sortLE a b = true ∨ sortLE b a = true := by
  rw [sortLE_iff, sortLE_iff]
  exact le_total (sortKey a) (sortKey b)

/-- The comparator is transitive. -/
theorem sortLE_trans {a b c : extension} (hab : sortLE a b = true) (hbc : sortLE b c = true) :
    sortLE a c = true := by
  rw [sortLE_iff] at hab hbc ⊢
  exact le_trans hab hbc

/-- C1 is false on the code as stated: the sort places a descriptor with no
populated facet (display classification none, empty string) before a
javascript descriptor of the same tier, while the claim orders javascript
before none.  The counterexample input holds one official javascript
descriptor and one official facetless descriptor. -/
theorem sortExtensions_claimedOrder_counterexample :
    sortExtensions [extJsOfficial, extNoneOfficial] = [extNoneOfficial, extJsOfficial] ∧
    extNoneOfficial.Tier = extJsOfficial.Tier ∧
    specKindRank extJsOfficial = 0 ∧ specKindRank extNoneOfficial = 3 ∧
    ¬ specSortedAsClaimed (sortExtensions [extJsOfficial, extNoneOfficial]) := by
  have hsort : sortExtensions [extJsOfficial, extNoneOfficial] =
      [extNoneOfficial, extJsOfficial] := by decide
  refine ⟨hsort, rfl, rfl, rfl, ?_⟩
  rw [hsort]
  intro h
  rcases List.pairwise_cons.mp h with ⟨hrel, -⟩
  have hk := (hrel extJsOfficial (List.mem_cons_self _ _)).2 rfl
  rcases hk with h1 | ⟨h2, -⟩
  · exact absurd h1 (by decide)
  · exact absurd h2 (by decide)

/-- C1 (amended): `sortExtensions` returns a permutation of its input that is
ordered by tier descending (string order, so official precedes community),
then by the display type string ascending — which places the empty none
classification first, before javascript, output and subcommand — and then by
module ascending. -/
theorem sortExtensions_sorted (l : List extension) :
    (sortExtensions l).Perm l ∧
    (sortExtensions l).Pairwise (fun a b =>
      b.Tier < a.Tier ∨ (a.Tier = b.Tier ∧ (extensionType a < extensionType b ∨
        (extensionType a = extensionType b ∧ a.Module ≤ b.Module)))) ∧
    (sortExtensions l).Pairwise (fun a b => a.Tier = "community" → b.Tier ≠ "official") := by
  haveI htot : IsTotal extension (fun a b => sortLE a b = true) := ⟨sortLE_total⟩
  haveI htr : IsTrans extension (fun a b => sortLE a b = true) := ⟨fun _ _ _ => sortLE_trans⟩
  have hs : (sortExtensions l).Pairwise (fun a b => sortLE a b = true) :=
    List.sorted_insertionSort _ l
  refine ⟨List.perm_insertionSort _ l, hs.imp (fun h => (sortLE_expand _ _).mp h), ?_⟩
  refine hs.imp (fun {a b} h hca hbo => ?_)
  rcases (sortLE_expand a b).mp h with hlt | ⟨heq, _⟩
  · rw [hca, hbo, String.lt_iff_toList_lt] at hlt
    exact absurd hlt (by decide)
  · rw [hca, hbo] at heq
    exact absurd heq (by decide)

/-- C9: sorting is idempotent, sorting the output of a previous sort yields
exactly the same sequence. -/
theorem sortExtensions_idempotent (l : List extension) :
    sortExtensions (sortExtensions l) = sortExtensions l := by
  haveI htot : IsTotal extension (fun a b => sortLE a b = true) := ⟨sortLE_total⟩
  haveI htr : IsTrans extension (fun a b => sortLE a b = true) := ⟨fun _ _ _ => sortLE_trans⟩
  exact List.Sorted.insertionSort_eq (List.sorted_insertionSort _ l)

/-- C5: no descriptor whose module is the reserved self-identifier of the
host tool ever appears in the output of `filterExtensions`, for any catalog
and any combination of filter values. -/
theorem filterExtensions_excludes_self (catalog : List (String × extension)) (k : kind)
    (t : tier) (e : extension) (h : e ∈ filterExtensions catalog k t) :
    e.Module ≠ "go.k6.io/k6" := by
  unfold filterExtensions at h
  have hp := (List.mem_filter.mp h).2
  simp only [Bool.and_eq_true, decide_eq_true_eq] at hp
  exact hp.1.1

/-- C5 witness: a concrete catalog entry that survives filtering indeed is
not the host tool itself. -/
theorem filterExtensions_excludes_self_witness : extJsOfficial.Module ≠ "go.k6.io/k6" :=
  filterExtensions_excludes_self [("xk6-faker", extJsOfficial)] "" "" extJsOfficial (by decide)

/-- C6: filtering with both a kind and a tier filter is the conjunction of
the two filters; membership in the doubly filtered output coincides with
membership in both singly filtered outputs.  This holds for every filter
string, in particular for each kind and tier literal pair. -/
theorem filterExtensions_conjunction (catalog : List (String × extension)) (k : kind)
    (t : tier) (e : extension) :
    e ∈ filterExtensions catalog k t ↔
      e ∈ filterExtensions catalog k "" ∧ e ∈ filterExtensions catalog "" t := by
  unfold filterExtensions
  simp only [List.mem_filter, Bool.and_eq_true, decide_eq_true_eq]
  have hk : kind.filter "" e = true := rfl
  have ht : tier.filter "" e = true := rfl
  constructor
  · rintro ⟨hm, ⟨hs, hkf⟩, htf⟩
    exact ⟨⟨hm, ⟨hs, hkf⟩, ht⟩, ⟨hm, ⟨hs, hk⟩, htf⟩⟩
  · rintro ⟨⟨hm, ⟨hs, hkf⟩, -⟩, ⟨-, ⟨-, -⟩, htf⟩⟩
    exact ⟨hm, ⟨hs, hkf⟩, htf⟩

/-- C7: a descriptor whose tier is neither `official` nor `community` fails a
present tier filter of either value but passes when no tier filter is
applied. -/
theorem tierFilter_strict (e : extension) (h1 : e.Tier ≠ "official")
    (h2 : e.Tier ≠ "community") :
    tier.filter "official" e = false ∧ tier.filter "community" e = false ∧
      tier.filter "" e = true := by
  refine ⟨?_, ?_, rfl⟩ <;> simp [tier.filter, h1, h2]

/-- C7 witness: a concrete descriptor with tier `partner` fails both strict
filters and passes the absent filter. -/
theorem tierFilter_strict_witness :
    tier.filter "official" extUnrecognizedTier = false ∧
    tier.filter "community" extUnrecognizedTier = false ∧
    tier.filter "" extUnrecognizedTier = true :=
  tierFilter_strict extUnrecognizedTier (by decide) (by decide)

/-- C4: whenever `getExtensionCatalog` succeeds, every descriptor of the
returned catalog has its `Latest` field recomputed from its version list,
and it arises from a wire descriptor whose transmitted `Latest` value has
been discarded. -/
theorem getExtensionCatalog_recomputes_latest (resp : HttpResponse)
    (cat : List (String × extension)) (h : getExtensionCatalog resp = .ok cat) :
    ∀ k e, (k, e) ∈ cat → e.Latest = findLatest e.Versions ∧
      ∃ w, (k, w) ∈ resp.bodyDecoded.getD [] ∧
        e = { w with Latest := findLatest w.Versions } := by
  unfold getExtensionCatalog at h
  by_cases hs : resp.statusCode = 200
  · rw [if_neg (by simp [hs])] at h
    cases hb : resp.bodyDecoded with
    | none => rw [hb] at h; cases h
    | some d =>
      rw [hb] at h
      cases h
      intro k e hke
      obtain ⟨⟨k', w⟩, hw, heq⟩ := List.mem_map.mp hke
      cases heq
      exact ⟨rfl, w, hw, rfl⟩
  · rw [if_pos hs] at h
    cases h

/-- C4 witness: the concrete response with a bogus wire `Latest` value comes
back annotated with the recomputed value. -/
theorem getExtensionCatalog_recomputes_latest_witness :
    extFakerAnnotated.Latest = findLatest extFakerAnnotated.Versions ∧
    ∃ w, ("xk6-faker", w) ∈ respOkWireLatest.bodyDecoded.getD [] ∧
      extFakerAnnotated = { w with Latest := findLatest w.Versions } :=
  getExtensionCatalog_recomputes_latest respOkWireLatest [("xk6-faker", extFakerAnnotated)]
    (by rfl) "xk6-faker" extFakerAnnotated (by decide)

/-- C8: a non-success status yields the wrapped fetch error carrying the
status description and no catalog, and a success status with an undecodable
body yields a decode error and no catalog. -/
theorem getExtensionCatalog_error_behavior (resp : HttpResponse) :
    (resp.statusCode ≠ 200 →
      getExtensionCatalog resp = .error (.fetchStatus resp.status) ∧
      (CatalogError.fetchStatus resp.status).message =
        errFetchExtensionCatalog ++ ": " ++ resp.status) ∧
    (resp.statusCode = 200 → resp.bodyDecoded = none →
      getExtensionCatalog resp = .error .decodeError) := by
  constructor
  · intro hs
    exact ⟨by simp [getExtensionCatalog, hs], rfl⟩
  · intro hs hb
    simp [getExtensionCatalog, hs, hb]

/-- C8 witness: a concrete 404 response errors with the wrapped status, and a
concrete undecodable 200 response errors with a decode error. -/
theorem getExtensionCatalog_error_behavior_witness :
    getExtensionCatalog resp404 = .error (.fetchStatus resp404.status) ∧
    getExtensionCatalog respBadBody = .error .decodeError :=
  ⟨((getExtensionCatalog_error_behavior resp404).1 (by decide)).1,
    (getExtensionCatalog_error_behavior respBadBody).2 (by decide) rfl⟩

/-- The three-way string comparison is oriented. -/
theorem strCompare_swap (x y : String) : (strCompare x y).swap = strCompare y x := by
  unfold strCompare
  cases hxy : strLtB x y with
  | true =>
    cases hyx : strLtB y x with
    | true => exact absurd ((strLtB_iff y x).mp hyx) (lt_asymm ((strLtB_iff x y).mp hxy))
    | false => simp [hyx, Ordering.swap]
  | false =>
    cases hyx : strLtB y x with
    | true => simp [hyx, Ordering.swap]
    | false => simp [hyx, Ordering.swap]

/-- The three-way string comparison is below `gt` exactly on the order. -/
theorem strCompare_ne_gt {x y : String} : strCompare x y ≠ .gt ↔ x ≤ y := by
  unfold strCompare
  cases hxy : strLtB x y with
  | true =>
    simp only [if_pos rfl]
    exact iff_of_true (by simp) (le_of_lt ((strLtB_iff x y).mp hxy))
  | false =>
    cases hyx : strLtB y x with
    | true =>
      rw [if_neg Bool.false_ne_true, if_pos rfl]
      exact iff_of_false (by simp) (not_le_of_lt ((strLtB_iff y x).mp hyx))
    | false =>
      rw [if_neg Bool.false_ne_true, if_neg Bool.false_ne_true]
      refine iff_of_true (by simp) ?_
      exact not_lt.mp (fun h => by rw [(strLtB_iff y x).mpr h] at hyx; cases hyx)

/-- The pre-release identifier comparison is transitive and oriented. -/
instance : Batteries.TransCmp comparePrePart where
  symm x y := by
    unfold comparePrePart
    cases hx : parseNumericIdent x <;> cases hy : parseNumericIdent y <;>
      simp only [hx, hy]
    · exact strCompare_swap x y
    · rfl
    · rfl
    · exact Batteries.OrientedCmp.symm ..
  le_trans {x y z} h1 h2 := by
    unfold comparePrePart at h1 h2 ⊢
    cases hx : parseNumericIdent x <;> cases hy : parseNumericIdent y <;>
      cases hz : parseNumericIdent z <;> simp only [hx, hy, hz] at h1 h2 ⊢
    · rw [strCompare_ne_gt] at h1 h2 ⊢
      exact le_trans h1 h2
    · exact absurd rfl h2
    · exact absurd rfl h1
    · exact absurd rfl h1
    · simp
    · exact absurd rfl h2
    · simp
    · exact Batteries.TransCmp.le_trans h1 h2

/-- Lexicographic list comparison is oriented when the element comparison
is. -/
theorem listCompareWith_swap {cmp : α → α → Ordering} [Batteries.OrientedCmp cmp] :
    ∀ (x y : List α), (listCompareWith cmp x y).swap = listCompareWith cmp y x
  | [], [] => rfl
  | [], _ :: _ => rfl
  | _ :: _, [] => rfl
  | x :: xs, y :: ys => by
    rw [listCompareWith, listCompareWith, Ordering.swap_then,
      Batteries.OrientedCmp.symm x y, listCompareWith_swap xs ys]

/-- Lexicographic list comparison is transitive when the element comparison
is. -/
theorem listCompareWith_le_trans {cmp : α → α → Ordering} [Batteries.TransCmp cmp] :
    ∀ {x y z : List α}, listCompareWith cmp x y ≠ .gt → listCompareWith cmp y z ≠ .gt →
      listCompareWith cmp x z ≠ .gt := by
  intro x
  induction x with
  | nil =>
    intro y z _ _
    cases z <;> simp [listCompareWith]
  | cons a as ih =>
    intro y z h1 h2
    cases z with
    | nil =>
      cases y with
      | nil => exact absurd h1 (by simp [listCompareWith])
      | cons b bs => exact absurd h2 (by simp [listCompareWith])
    | cons c cs =>
      cases y with
      | nil => exact absurd h1 (by simp [listCompareWith])
      | cons b bs =>
        rw [listCompareWith] at h1 h2 ⊢
        rw [Ne, Ordering.then_eq_gt, not_or, not_and] at h1 h2 ⊢
        refine ⟨Batteries.TransCmp.le_trans h1.1 h2.1, fun e1 e2 => ?_⟩
        match hab : cmp a b with
        | .gt => exact h1.1 hab
        | .eq =>
          exact ih (h1.2 hab) (h2.2 (Batteries.TransCmp.cmp_congr_left hab ▸ e1)) e2
        | .lt =>
          exact h2.1 ((Batteries.OrientedCmp.cmp_eq_gt).2
            (Batteries.TransCmp.cmp_congr_left e1 ▸ hab))

/-- The pre-release list comparison is transitive and oriented. -/
instance : Batteries.TransCmp comparePre where
  symm x y := by
    match x, y with
    | [], [] => rfl
    | [], _ :: _ => rfl
    | _ :: _, [] => rfl
    | a :: as, b :: bs =>
      show (listCompareWith comparePrePart (a :: as) (b :: bs)).swap =
        listCompareWith comparePrePart (b :: bs) (a :: as)
      exact listCompareWith_swap ..
  le_trans {x y z} h1 h2 := by
    match x, y, z with
    | [], [], [] => simp [comparePre]
    | [], [], _ :: _ => exact h2
    | [], _ :: _, _ => exact absurd rfl h1
    | _ :: _, [], [] => simp [comparePre]
    | _ :: _, [], _ :: _ => exact absurd rfl h2
    | _ :: _, _ :: _, [] => simp [comparePre]
    | a :: as, b :: bs, c :: cs =>
      exact listCompareWith_le_trans h1 h2

/-- The full semantic-version comparison is transitive and oriented. -/
instance : Batteries.TransCmp semverCompare := by
  haveI hpre : Batteries.TransCmp (fun a b : Semver => comparePre a.pre b.pre) :=
    { symm := fun x y => Batteries.OrientedCmp.symm x.pre y.pre,
      le_trans := fun h1 h2 => Batteries.TransCmp.le_trans h1 h2 }
  exact inferInstanceAs (Batteries.TransCmp (compareLex (compareOn Semver.major)
    (compareLex (compareOn Semver.minor) (compareLex (compareOn Semver.patch)
      (fun a b : Semver => comparePre a.pre b.pre)))))

/-- A successful parse keeps the input string as the original form. -/
theorem semverParse_original {s : String} {v : Semver} (h : semverParse s = some v) :
    v.original = s := by
  unfold semverParse at h
  cases hc : semverParseCore s with
  | none => rw [hc] at h; cases h
  | some q =>
    obtain ⟨a, b, c, p⟩ := q
    rw [hc] at h
    cases h
    rfl

/-- The boolean strict comparison agrees with the comparator. -/
theorem semverGreaterThan_iff {a b : Semver} :
    semverGreaterThan a b = true ↔ semverCompare a b = .gt := by
  unfold semverGreaterThan
  cases semverCompare a b <;> decide

/-- Invariant of the `findLatest` fold: the result is the initial candidate or
a parsed entry of the folded list, it is at least the initial candidate, and
no parsed entry of the folded list compares strictly greater than it. -/
theorem foldl_findLatestStep (rest : List String) (acc : Semver) :
    (rest.foldl findLatestStep acc = acc ∨
      ∃ w ∈ rest, semverParse w = some (rest.foldl findLatestStep acc)) ∧
    semverCompare acc (rest.foldl findLatestStep acc) ≠ .gt ∧
    ∀ u ∈ rest, ∀ su, semverParse u = some su →
      semverCompare su (rest.foldl findLatestStep acc) ≠ .gt := by
  induction rest generalizing acc with
  | nil =>
    have hrefl : semverCompare acc acc = .eq := Batteries.OrientedCmp.cmp_refl
    refine ⟨Or.inl rfl, by simp [hrefl], by simp⟩
  | cons v rest ih =>
    simp only [List.foldl_cons]
    have hstep : (findLatestStep acc v = acc ∧ ∀ su, semverParse v = some su →
        semverCompare su acc ≠ .gt) ∨
        (∃ ver, semverParse v = some ver ∧ findLatestStep acc v = ver ∧
          semverCompare ver acc = .gt) := by
      unfold findLatestStep
      cases hp : semverParse v with
      | none =>
        refine Or.inl ⟨rfl, fun su hsu => ?_⟩
        cases hsu
      | some ver =>
        by_cases hg : semverGreaterThan ver acc = true
        · refine Or.inr ⟨ver, rfl, ?_, semverGreaterThan_iff.mp hg⟩
          show (if semverGreaterThan ver acc = true then ver else acc) = ver
          rw [if_pos hg]
        · refine Or.inl ⟨?_, fun su hsu => ?_⟩
          · show (if semverGreaterThan ver acc = true then ver else acc) = acc
            rw [if_neg hg]
          · have hsv : su = ver := (Option.some.inj hsu).symm
            subst hsv
            exact fun hgt => hg (semverGreaterThan_iff.mpr hgt)
    rcases hstep with ⟨heq, hkeep⟩ | ⟨ver, hp, heq, hg⟩
    · rw [heq]
      obtain ⟨ih1, ih2, ih3⟩ := ih acc
      refine ⟨?_, ih2, ?_⟩
      · rcases ih1 with h | ⟨w, hw, hpw⟩
        · exact Or.inl h
        · exact Or.inr ⟨w, List.mem_cons_of_mem _ hw, hpw⟩
      · intro u hu su hsu
        rcases List.mem_cons.mp hu with rfl | hu
        · exact Batteries.TransCmp.le_trans (hkeep su hsu) ih2
        · exact ih3 u hu su hsu
    · rw [heq]
      obtain ⟨ih1, ih2, ih3⟩ := ih ver
      have hlt : semverCompare acc ver = .lt := Batteries.OrientedCmp.cmp_eq_gt.mp hg
      refine ⟨?_, ?_, ?_⟩
      · rcases ih1 with h | ⟨w, hw, hpw⟩
        · exact Or.inr ⟨v, List.mem_cons_self .., by rw [h]; exact hp⟩
        · exact Or.inr ⟨w, List.mem_cons_of_mem _ hw, hpw⟩
      · have := Batteries.TransCmp.lt_le_trans hlt ih2
        simp [this]
      · intro u hu su hsu
        rcases List.mem_cons.mp hu with rfl | hu
        · have hsv : su = ver := by rw [hp] at hsu; exact (Option.some.inj hsu).symm
          subst hsv
          exact ih2
        · exact ih3 u hu su hsu

/-- Unfolding equation of `findLatest` on a non-empty sequence. -/
theorem findLatest_cons (v0 : String) (rest : List String) :
    findLatest (v0 :: rest) =
      match semverParse v0 with
      | none => ""
      | some first => (rest.foldl findLatestStep first).original := rfl

/-- C2: for every non-empty version sequence whose first entry parses,
`findLatest` returns exactly the original string form of a parseable entry of
the sequence, and no parseable entry of the sequence compares strictly
greater than the winner; unparseable later entries are ignored. -/
theorem findLatest_max (v0 : String) (rest : List String) (s0 : Semver)
    (h : semverParse v0 = some s0) :
    ∃ w ∈ v0 :: rest, ∃ sw, semverParse w = some sw ∧ findLatest (v0 :: rest) = w ∧
      ∀ u ∈ v0 :: rest, ∀ su, semverParse u = some su → semverCompare su sw ≠ .gt := by
  obtain ⟨h1, h2, h3⟩ := foldl_findLatestStep rest s0
  have horig : findLatest (v0 :: rest) = (rest.foldl findLatestStep s0).original := by
    rw [findLatest_cons, h]
  set r := rest.foldl findLatestStep s0 with hr
  have hmax : ∀ u ∈ v0 :: rest, ∀ su, semverParse u = some su →
      semverCompare su r ≠ .gt := by
    intro u hu su hsu
    rcases List.mem_cons.mp hu with rfl | hu
    · have hs : su = s0 := by rw [h] at hsu; exact (Option.some.inj hsu).symm
      subst hs
      exact h2
    · exact h3 u hu su hsu
  rcases h1 with heq | ⟨w, hw, hpw⟩
  · refine ⟨v0, List.mem_cons_self .., s0, h, ?_, ?_⟩
    · rw [horig, heq, semverParse_original h]
    · intro u hu su hsu
      have hu' := hmax u hu su hsu
      rwa [heq] at hu'
  · refine ⟨w, List.mem_cons_of_mem _ hw, r, hpw, ?_, hmax⟩
    rw [horig, semverParse_original hpw]

/-- C2 witness: the out-of-order sequence from the test suite resolves to a
maximal parseable entry. -/
theorem findLatest_max_witness :
    ∃ w ∈ ["v0.4.2", "v0.4.4", "v0.4.3"], ∃ sw, semverParse w = some sw ∧
      findLatest ["v0.4.2", "v0.4.4", "v0.4.3"] = w ∧
      ∀ u ∈ ["v0.4.2", "v0.4.4", "v0.4.3"], ∀ su, semverParse u = some su →
        semverCompare su sw ≠ .gt :=
  findLatest_max "v0.4.2" ["v0.4.4", "v0.4.3"]
    { major := 0, minor := 4, patch := 2, pre := [], original := "v0.4.2" } (by decide)

/-- C3: the empty sequence resolves to the empty string; an unparseable first
entry short-circuits to the empty string even when later entries are
well-formed; a parse failure on a subsequent entry is silently skipped and
does not affect the result. -/
theorem findLatest_shortCircuit :
    findLatest [] = "" ∧
    (∀ v0 rest, semverParse v0 = none → findLatest (v0 :: rest) = "") ∧
    (∀ v0 xs ys u, semverParse u = none →
      findLatest (v0 :: (xs ++ u :: ys)) = findLatest (v0 :: (xs ++ ys))) := by
  refine ⟨rfl, ?_, ?_⟩
  · intro v0 rest h
    rw [findLatest_cons, h]
  · intro v0 xs ys u h
    rw [findLatest_cons, findLatest_cons]
    cases hp : semverParse v0 with
    | none => rfl
    | some s0 =>
      show ((xs ++ u :: ys).foldl findLatestStep s0).original =
        ((xs ++ ys).foldl findLatestStep s0).original
      rw [List.foldl_append, List.foldl_append, List.foldl_cons]
      have hskip : findLatestStep (xs.foldl findLatestStep s0) u =
          xs.foldl findLatestStep s0 := by
        unfold findLatestStep
        rw [h]
      rw [hskip]

/-- C3 witness: the concrete first-entry short-circuit and a concrete skipped
middle entry. -/
theorem findLatest_shortCircuit_witness :
    findLatest ["invalid", "v1.0.0"] = "" ∧
    findLatest ["v0.4.4", "invalid", "v0.4.3"] = findLatest ["v0.4.4", "v0.4.3"] :=
  ⟨findLatest_shortCircuit.2.1 "invalid" ["v1.0.0"] (by decide),
    findLatest_shortCircuit.2.2 "v0.4.4" [] ["v0.4.3"] "invalid" (by decide)⟩

/-- C10: the resolved latest version is either the empty string or
string-equal to one of the input entries; the function never fabricates or
reformats a version string. -/
theorem findLatest_mem_or_empty (versions : List String) :
    findLatest versions = "" ∨ findLatest versions ∈ versions := by
  cases versions with
  | nil => exact Or.inl rfl
  | cons v0 rest =>
    cases hp : semverParse v0 with
    | none =>
      refine Or.inl ?_
      rw [findLatest_cons, hp]
    | some s0 =>
      refine Or.inr ?_
      have h1 := (foldl_findLatestStep rest s0).1
      have horig : findLatest (v0 :: rest) = (rest.foldl findLatestStep s0).original := by
        rw [findLatest_cons, hp]
      rcases h1 with heq | ⟨w, hw, hpw⟩
      · rw [horig, heq, semverParse_original hp]
        exact List.mem_cons_self ..
      · rw [horig, semverParse_original hpw]
        exact List.mem_cons_of_mem _ hw
